import Mathlib

/-!
Verification of the `jlox-rs` streaming lexer (`src/crates/lexer`).

The source text is modelled as a `List Char`; positions and spans are byte
offsets computed with `Char.utf8Size`, exactly as the Rust code advances its
cursor with `char::len_utf8`.  Every scanner routine
(`Lexer::next_token`, `Lexer::slash`, `Lexer::string_literal`,
`Lexer::number_literal`, `Lexer::identifier`, `Lexer::op_with_eq`,
`Lexer::wrap`, `Lexer::tokens`) is embedded as a Lean function of the source
and the cursor.  Executable fuel-indexed mirrors, proved equal to the
embedding, let concrete inputs be evaluated by `decide`.
-/

set_option maxRecDepth 4000

namespace Jlox

/-- Byte length of a character sequence, matching Rust `str::len` on UTF-8. -/
def utf8Len (s : List Char) : Nat := (s.map Char.utf8Size).sum

/-- Drop `n` bytes from the front of a character sequence.  Mirrors
`str::get(n..)` followed by `unwrap_or("")`: if `n` is not a character
boundary (or exceeds the text), the result is empty. -/
def byteDrop : List Char → Nat → List Char
  | s, 0 => s
  | [], _ + 1 => []
  | c :: cs, n + 1 =>
    if c.utf8Size ≤ n + 1 then byteDrop cs (n + 1 - c.utf8Size) else []

/-- Take `n` bytes from the front of a character sequence (byte-exact prefix;
stops early if `n` falls inside a character). -/
def byteTake : List Char → Nat → List Char
  | _, 0 => []
  | [], _ + 1 => []
  | c :: cs, n + 1 =>
    if c.utf8Size ≤ n + 1 then c :: byteTake cs (n + 1 - c.utf8Size) else []

/-- The byte range `[a, b)` of the source, as in Rust `&src[a..b]`. -/
def byteSlice (s : List Char) (a b : Nat) : List Char := byteTake (byteDrop s a) (b - a)

theorem utf8Len_cons (c : Char) (s : List Char) :
    utf8Len (c :: s) = c.utf8Size + utf8Len s := by
  simp [utf8Len]

theorem byteDrop_zero (s : List Char) : byteDrop s 0 = s := by
  cases s <;> rfl

/-- Advancing the cursor past the first remaining character leaves the rest. -/
theorem byteDrop_step {src : List Char} {pos : Nat} {c : Char} {r : List Char}
    (h : byteDrop src pos = c :: r) :
    byteDrop src (pos + c.utf8Size) = r := by
  induction src generalizing pos with
  | nil =>
    cases pos with
    | zero => simp [byteDrop] at h
    | succ n => simp [byteDrop] at h
  | cons d ds ih =>
    cases pos with
    | zero =>
      rw [byteDrop_zero] at h
      cases h
      have h1 : 1 ≤ c.utf8Size := c.utf8Size_pos
      cases hn : c.utf8Size with
      | zero => omega
      | succ m =>
        rw [Nat.zero_add]
        simp only [byteDrop]
        rw [if_pos (by omega), show m + 1 - c.utf8Size = 0 by omega, byteDrop_zero]
    | succ n =>
      rw [byteDrop] at h
      by_cases hle : d.utf8Size ≤ n + 1
      · rw [if_pos hle] at h
        have := ih h
        have hd1 : 1 ≤ d.utf8Size := d.utf8Size_pos
        have : byteDrop ds (n + 1 - d.utf8Size + c.utf8Size) = r := this
        show byteDrop (d :: ds) (n + 1 + c.utf8Size) = r
        have hc1 : 1 ≤ c.utf8Size := c.utf8Size_pos
        cases hm : n + 1 + c.utf8Size with
        | zero => omega
        | succ k =>
          rw [byteDrop]
          rw [if_pos (by omega)]
          rw [show k + 1 - d.utf8Size = n + 1 - d.utf8Size + c.utf8Size by omega]
          exact this
      · rw [if_neg hle] at h
        exact absurd h (by simp)

/-- A successful cursor read accounts for all bytes of the source. -/
theorem byteDrop_len {src : List Char} {pos : Nat} {c : Char} {r : List Char}
    (h : byteDrop src pos = c :: r) :
    pos + c.utf8Size + utf8Len r = utf8Len src := by
  induction src generalizing pos with
  | nil =>
    cases pos with
    | zero => simp [byteDrop] at h
    | succ n => simp [byteDrop] at h
  | cons d ds ih =>
    cases pos with
    | zero =>
      rw [byteDrop_zero] at h
      cases h
      simp [utf8Len_cons]
    | succ n =>
      rw [byteDrop] at h
      by_cases hle : d.utf8Size ≤ n + 1
      · rw [if_pos hle] at h
        have := ih h
        rw [utf8Len_cons]
        omega
      · rw [if_neg hle] at h
        exact absurd h (by simp)

theorem byteDrop_pos_lt {src : List Char} {pos : Nat} {c : Char} {r : List Char}
    (h : byteDrop src pos = c :: r) : pos < utf8Len src := by
  have := byteDrop_len h
  have := c.utf8Size_pos
  omega

/-- `TokenKind` from `src/crates/lexer/src/token.rs`. -/
inductive TokenKind where
  | LeftParen | RightParen | LeftBrace | RightBrace
  | Comma | Dot | Minus | Plus | Semicolon | Slash | Star
  | Bang | BangEqual | Equal | EqualEqual
  | Greater | GreaterEqual | Less | LessEqual
  | String | Identifier | Number
  | And | Class | Else | False | Fun | For | If | Nil | Or
  | Print | Return | Super | This | True | Var | While
  | Eof
deriving DecidableEq, Repr

/-- The reserved-keyword table `KEYWORDS`. -/
def KEYWORDS : List (List Char × TokenKind) :=
  [("and".data, .And), ("class".data, .Class), ("else".data, .Else),
   ("false".data, .False), ("for".data, .For), ("fun".data, .Fun),
   ("if".data, .If), ("nil".data, .Nil), ("or".data, .Or),
   ("print".data, .Print), ("return".data, .Return), ("super".data, .Super),
   ("this".data, .This), ("true".data, .True), ("var".data, .Var),
   ("while".data, .While)]

/-- `KEYWORDS.iter().find_map(..)`: first exact match wins. -/
def lookupKw : List (List Char × TokenKind) → List Char → Option TokenKind
  | [], _ => none
  | (kw, kind) :: rest, l => if l = kw then some kind else lookupKw rest l

/-- `TokenKind::from_keyword`. -/
def TokenKind.fromKeyword (lexeme : List Char) : Option TokenKind :=
  lookupKw KEYWORDS lexeme

/-- `impl From<char> for TokenKind`.  The Rust conversion panics outside its
table; `none` marks that panic branch. -/
def tokenKindOfChar : Char → Option TokenKind
  | '(' => some .LeftParen
  | ')' => some .RightParen
  | '{' => some .LeftBrace
  | '}' => some .RightBrace
  | ',' => some .Comma
  | '.' => some .Dot
  | '-' => some .Minus
  | '+' => some .Plus
  | ';' => some .Semicolon
  | '/' => some .Slash
  | '*' => some .Star
  | '!' => some .Bang
  | '=' => some .Equal
  | '>' => some .Greater
  | '<' => some .Less
  | _ => none

/-- `miette::SourceSpan` as constructed by `(offset, length).into()`. -/
structure SourceSpan where
  offset : Nat
  length : Nat
deriving DecidableEq, Repr

/-- `TokenSpan` — a half-open `[start, stop)` byte range. -/
structure TokenSpan where
  start : Nat
  stop : Nat
deriving DecidableEq, Repr

/-- `Token`: kind, lexeme (sequence of source characters) and span. -/
structure Token where
  kind : TokenKind
  lexeme : List Char
  span : TokenSpan
deriving DecidableEq, Repr

/-- `Token::eof`. -/
def Token.eof (offset : Nat) : Token :=
  ⟨.Eof, ['<', 'e', 'o', 'f', '>'], ⟨offset, offset⟩⟩

/-- The lexer's `Error` enum (`src/crates/lexer/src/error.rs`); each variant
carries the full source text and a labeled span. -/
inductive LexError where
  | UnexpectedChar (src : List Char) (loc : SourceSpan) (c : Char)
  | UnexpectedEof (src : List Char) (loc : SourceSpan)
  | UnterminatedString (src : List Char) (loc : SourceSpan)
  | UnterminatedBlockComment (src : List Char) (loc : SourceSpan)
deriving DecidableEq, Repr

/-- The two error kinds after which no further input remains (§7 taxonomy). -/
def LexError.isTerminal : LexError → Bool
  | .UnterminatedString _ _ => true
  | .UnterminatedBlockComment _ _ => true
  | _ => false

deriving instance DecidableEq for Except

/-- Outcome of one `Lexer::next_token` call: `done` is Rust's `None`,
`yield` is `Some(result)` together with the cursor after the call, and
`panicked` marks the unreachable panic branch of the `char → TokenKind`
conversion. -/
inductive ScanStep where
  | done
  | panicked
  | yield (r : Except LexError Token) (pos : Nat)
deriving DecidableEq, Repr

/-- The single-character punctuation set of `Lexer::next_token`'s first
match arm. -/
def punctChar (c : Char) : Bool :=
  c = '(' || c = ')' || c = '{' || c = '}' || c = ',' ||
  c = '.' || c = '-' || c = '+' || c = ';' || c = '*'

/-- `is_alphanumeric` from `lexer.rs`: ASCII alphanumerics and `_`. -/
def isAlphanumeric (c : Char) : Bool := c.isAlphanum || c = '_'

/-- `Lexer::wrap`: build a token whose lexeme is the source slice over the
span. -/
def wrap (src : List Char) (kind : TokenKind) (start stop : Nat) :
    Except LexError Token :=
  .ok ⟨kind, byteSlice src start stop, ⟨start, stop⟩⟩

/-- `Lexer::op_with_eq`, entered with the cursor just past the operator
character. -/
def opWithEq (src : List Char) (opEq op : TokenKind) (pos : Nat) :
    Except LexError Token × Nat :=
  if (byteDrop src pos).head? = some '=' then
    (wrap src opEq (pos + 1 - 2) (pos + 1), pos + 1)
  else
    (wrap src op (pos - 1) pos, pos)

/-- `str::find('\n')`: byte index of the first newline, if any. -/
def findNewline : List Char → Option Nat
  | [] => none
  | c :: r => if c = '\n' then some 0 else (findNewline r).map (c.utf8Size + ·)

/-- The block-comment loop of `Lexer::slash`, entered at the first `*` with
depth 1; returns the cursor after the loop and the final depth. -/
def blockComment (src : List Char) (pos : Nat) (depth : Int) : Nat × Int :=
  match h : byteDrop src pos with
  | [] => (pos, depth)
  | c :: _ =>
    if c = '/' ∧ (byteDrop src (pos + c.utf8Size)).head? = some '*' then
      blockComment src (pos + c.utf8Size + 1) (depth + 1)
    else if c = '*' ∧ (byteDrop src (pos + c.utf8Size)).head? = some '/' then
      if depth - 1 = 0 then (pos + c.utf8Size + 1, depth - 1)
      else blockComment src (pos + c.utf8Size + 1) (depth - 1)
    else blockComment src (pos + c.utf8Size) depth
termination_by utf8Len src - pos
decreasing_by
  all_goals
    have hlt := byteDrop_pos_lt h
    have hsz := c.utf8Size_pos
    omega

theorem blockComment_ge (src : List Char) (pos : Nat) (depth : Int) :
    pos ≤ (blockComment src pos depth).1 := by
  induction pos, depth using blockComment.induct src with
  | case1 pos depth h => rw [blockComment.eq_def, h]
  | case2 pos depth c r h hc ih =>
    rw [blockComment.eq_def, h]
    simp only [if_pos hc]
    have := c.utf8Size_pos
    omega
  | case3 pos depth c r h hc hc2 hdep =>
    rw [blockComment.eq_def, h]
    simp only [if_neg hc, if_pos hc2, if_pos hdep]
    have := c.utf8Size_pos
    omega
  | case4 pos depth c r h hc hc2 hdep ih =>
    rw [blockComment.eq_def, h]
    simp only [if_neg hc, if_pos hc2, if_neg hdep]
    have := c.utf8Size_pos
    omega
  | case5 pos depth c r h hc hc2 ih =>
    rw [blockComment.eq_def, h]
    simp only [if_neg hc, if_neg hc2]
    have := c.utf8Size_pos
    omega

/-- When the loop ends with nonzero depth it has consumed all input. -/
theorem blockComment_ne_end {src : List Char} {pos p2 : Nat} {depth d2 : Int}
    (h : blockComment src pos depth = (p2, d2)) (hne : d2 ≠ 0) :
    byteDrop src p2 = [] := by
  induction pos, depth using blockComment.induct src with
  | case1 pos depth h0 =>
    rw [blockComment.eq_def, h0] at h
    cases h
    exact h0
  | case2 pos depth c r h0 hc ih =>
    rw [blockComment.eq_def, h0] at h
    simp only [if_pos hc] at h
    exact ih h
  | case3 pos depth c r h0 hc hc2 hdep =>
    rw [blockComment.eq_def, h0] at h
    simp only [if_neg hc, if_pos hc2, if_pos hdep] at h
    cases h
    exact absurd hdep hne
  | case4 pos depth c r h0 hc hc2 hdep ih =>
    rw [blockComment.eq_def, h0] at h
    simp only [if_neg hc, if_pos hc2, if_neg hdep] at h
    exact ih h
  | case5 pos depth c r h0 hc hc2 ih =>
    rw [blockComment.eq_def, h0] at h
    simp only [if_neg hc, if_neg hc2] at h
    exact ih h

/-- `Lexer::slash`, entered with the cursor just past the `/`.  `Sum.inl`
is `ControlFlow::Continue` carrying the new cursor; `Sum.inr` is
`ControlFlow::Break`. -/
def slash (src : List Char) (pos : Nat) :
    Sum Nat (Except LexError Token × Nat) :=
  let start := pos - 1
  if (byteDrop src pos).head? = some '/' then
    Sum.inl (match findNewline (byteDrop src pos) with
      | some i => pos + i
      | none => utf8Len src)
  else if (byteDrop src pos).head? = some '*' then
    match blockComment src pos 1 with
    | (p2, depth) =>
      if depth ≠ 0 then
        Sum.inr (.error (.UnterminatedBlockComment src ⟨start, p2 - start⟩), p2)
      else
        Sum.inl p2
  else
    Sum.inr (wrap src .Slash start pos, pos)

theorem slash_inl_ge {src : List Char} {pos p2 : Nat}
    (h : slash src pos = Sum.inl p2) : pos ≤ p2 ∨ p2 = utf8Len src := by
  unfold slash at h
  by_cases h1 : (byteDrop src pos).head? = some '/'
  · rw [if_pos h1] at h
    cases hf : findNewline (byteDrop src pos) with
    | some i =>
      rw [hf] at h
      simp only [Sum.inl.injEq] at h
      left; omega
    | none =>
      rw [hf] at h
      simp only [Sum.inl.injEq] at h
      right; exact h.symm
  · rw [if_neg h1] at h
    by_cases h2 : (byteDrop src pos).head? = some '*'
    · rw [if_pos h2] at h
      have hge := blockComment_ge src pos 1
      rcases hb : blockComment src pos 1 with ⟨q, d⟩
      rw [hb] at h hge
      by_cases hd : d ≠ 0
      · simp only [if_pos hd] at h
        exact absurd h (by simp)
      · simp only [if_neg hd, Sum.inl.injEq] at h
        exact Or.inl (h ▸ hge)
    · rw [if_neg h2] at h
      exact absurd h (by simp)

/-- The scanning loop of `Lexer::string_literal`: consume characters until a
closing quote; returns the new cursor and whether the quote was found. -/
def stringBody (src : List Char) (pos : Nat) : Nat × Bool :=
  match h : byteDrop src pos with
  | [] => (pos, false)
  | c :: _ =>
    if c = '"' then (pos + c.utf8Size, true)
    else stringBody src (pos + c.utf8Size)
termination_by utf8Len src - pos
decreasing_by
  have hlt := byteDrop_pos_lt h
  have hsz := c.utf8Size_pos
  omega

theorem stringBody_ge (src : List Char) (pos : Nat) :
    pos ≤ (stringBody src pos).1 := by
  induction pos using stringBody.induct src with
  | case1 pos h => rw [stringBody.eq_def, h]
  | case2 pos r h =>
    rw [stringBody.eq_def, h]
    simp
  | case3 pos c r h hc ih =>
    rw [stringBody.eq_def, h]
    simp only [if_neg hc]
    have := c.utf8Size_pos
    omega

theorem stringBody_false_end {src : List Char} {pos p2 : Nat}
    (h : stringBody src pos = (p2, false)) : byteDrop src p2 = [] := by
  induction pos using stringBody.induct src with
  | case1 pos h0 =>
    rw [stringBody.eq_def, h0] at h
    cases h
    exact h0
  | case2 pos r h0 =>
    rw [stringBody.eq_def, h0] at h
    simp at h
  | case3 pos c r h0 hc ih =>
    rw [stringBody.eq_def, h0] at h
    simp only [if_neg hc] at h
    exact ih h

/-- `Lexer::string_literal`, entered with the cursor just past the opening
quote. -/
def stringLit (src : List Char) (pos : Nat) : Except LexError Token × Nat :=
  let start := pos - 1
  match stringBody src pos with
  | (p2, true) => (wrap src .String start p2, p2)
  | (p2, false) =>
    (.error (.UnterminatedString src ⟨start, max (p2 - start) 1⟩), p2)

/-- The `consume_digits` closure of `Lexer::number_literal`. -/
def consumeDigits (src : List Char) (pos : Nat) : Nat :=
  match h : byteDrop src pos with
  | [] => pos
  | c :: _ => if c.isDigit then consumeDigits src (pos + c.utf8Size) else pos
termination_by utf8Len src - pos
decreasing_by
  have hlt := byteDrop_pos_lt h
  have hsz := c.utf8Size_pos
  omega

theorem consumeDigits_ge (src : List Char) (pos : Nat) :
    pos ≤ consumeDigits src pos := by
  induction pos using consumeDigits.induct src with
  | case1 pos h => rw [consumeDigits.eq_def, h]
  | case2 pos c r h hc ih =>
    rw [consumeDigits.eq_def, h]
    simp only [if_pos hc]
    have := c.utf8Size_pos
    omega
  | case3 pos c r h hc =>
    rw [consumeDigits.eq_def, h]
    simp only [if_neg hc]
    omega

/-- `Lexer::number_literal`, entered with the cursor just past the first
digit. -/
def numberLit (src : List Char) (pos : Nat) : Except LexError Token × Nat :=
  let start := pos - 1
  let p1 := consumeDigits src pos
  let p2 :=
    if (byteDrop src p1).head? = some '.' then
      let c := (((byteDrop src p1).drop 1).head?).getD (Char.ofNat 0)
      if c.isDigit then consumeDigits src (p1 + 1) else p1
    else p1
  (wrap src .Number start p2, p2)

/-- The identifier loop of `Lexer::identifier`. -/
def consumeAlnum (src : List Char) (pos : Nat) : Nat :=
  match h : byteDrop src pos with
  | [] => pos
  | c :: _ =>
    if isAlphanumeric c then consumeAlnum src (pos + c.utf8Size) else pos
termination_by utf8Len src - pos
decreasing_by
  have hlt := byteDrop_pos_lt h
  have hsz := c.utf8Size_pos
  omega

theorem consumeAlnum_ge (src : List Char) (pos : Nat) :
    pos ≤ consumeAlnum src pos := by
  induction pos using consumeAlnum.induct src with
  | case1 pos h => rw [consumeAlnum.eq_def, h]
  | case2 pos c r h hc ih =>
    rw [consumeAlnum.eq_def, h]
    simp only [if_pos hc]
    have := c.utf8Size_pos
    omega
  | case3 pos c r h hc =>
    rw [consumeAlnum.eq_def, h]
    simp only [if_neg hc]
    omega

/-- `Lexer::identifier`, entered with `start` at the first character and the
cursor just past it. -/
def identifier (src : List Char) (start pos : Nat) :
    Except LexError Token × Nat :=
  let p := consumeAlnum src pos
  match TokenKind.fromKeyword (byteSlice src start p) with
  | some kw => (wrap src kw start p, p)
  | none => (wrap src .Identifier start p, p)

/-- Lift a helper's `(result, cursor)` pair into a `ScanStep`. -/
def ScanStep.of : Except LexError Token × Nat → ScanStep
  | (r, p) => .yield r p

/-- `Lexer::next_token`: skip whitespace and comments, then produce the next
token or error together with the cursor after it. -/
def nextToken (src : List Char) (pos : Nat) : ScanStep :=
  if utf8Len src ≤ pos then .done
  else
    match h : byteDrop src pos with
    | [] => .done
    | c :: _ =>
      if punctChar c then
        match tokenKindOfChar c with
        | some kind =>
          .yield (wrap src kind pos (pos + c.utf8Size)) (pos + c.utf8Size)
        | none => .panicked
      else if c = '!' then
        ScanStep.of (opWithEq src .BangEqual .Bang (pos + c.utf8Size))
      else if c = '=' then
        ScanStep.of (opWithEq src .EqualEqual .Equal (pos + c.utf8Size))
      else if c = '>' then
        ScanStep.of (opWithEq src .GreaterEqual .Greater (pos + c.utf8Size))
      else if c = '<' then
        ScanStep.of (opWithEq src .LessEqual .Less (pos + c.utf8Size))
      else if c = '/' then
        match hs : slash src (pos + c.utf8Size) with
        | Sum.inl p2 => nextToken src p2
        | Sum.inr rp => ScanStep.of rp
      else if c = '"' then
        ScanStep.of (stringLit src (pos + c.utf8Size))
      else if c.isDigit then
        ScanStep.of (numberLit src (pos + c.utf8Size))
      else if isAlphanumeric c then
        ScanStep.of (identifier src pos (pos + c.utf8Size))
      else if c = '\n' ∨ c = '\r' ∨ c = ' ' ∨ c = '\t' then
        nextToken src (pos + c.utf8Size)
      else
        .yield
          (.error (.UnexpectedChar src
            ⟨pos + c.utf8Size - c.utf8Size, c.utf8Size⟩ c))
          (pos + c.utf8Size)
termination_by utf8Len src - pos
decreasing_by
  · have hsz := c.utf8Size_pos
    rcases slash_inl_ge hs with h2 | h2 <;> omega
  · have hsz := c.utf8Size_pos
    omega

theorem wrap_spec {src : List Char} {k : TokenKind} {a b : Nat} {t : Token}
    (h : wrap src k a b = .ok t) :
    t.kind = k ∧ t.lexeme = byteSlice src t.span.start t.span.stop ∧
      t.span = ⟨a, b⟩ := by
  cases h
  exact ⟨rfl, rfl, rfl⟩

theorem lookupKw_mem {L : List (List Char × TokenKind)} {l : List Char}
    {k : TokenKind} (h : lookupKw L l = some k) : ∃ kw, (kw, k) ∈ L := by
  induction L with
  | nil => simp [lookupKw] at h
  | cons p rest ih =>
    rcases p with ⟨kw, kind⟩
    rw [lookupKw] at h
    by_cases he : l = kw
    · rw [if_pos he] at h
      cases h
      exact ⟨kw, List.mem_cons_self _ _⟩
    · rw [if_neg he] at h
      obtain ⟨kw', hmem⟩ := ih h
      exact ⟨kw', List.mem_cons_of_mem _ hmem⟩

theorem fromKeyword_ne_eof {l : List Char} {k : TokenKind}
    (h : TokenKind.fromKeyword l = some k) : k ≠ .Eof := by
  obtain ⟨kw, hmem⟩ := lookupKw_mem h
  have : ∀ p ∈ KEYWORDS, p.2 ≠ TokenKind.Eof := by decide
  exact this (kw, k) hmem

theorem tokenKindOfChar_ne_eof {c : Char} {k : TokenKind}
    (h : tokenKindOfChar c = some k) : k ≠ .Eof := by
  unfold tokenKindOfChar at h
  split at h <;> (cases h) <;> decide

/-- The checked conversion succeeds on every character of the punctuation
match arm. -/
theorem tokenKindOfChar_punct {c : Char} (h : punctChar c = true) :
    (tokenKindOfChar c).isSome = true := by
  simp only [punctChar, Bool.or_eq_true, decide_eq_true_eq] at h
  rcases h with ((((((((h | h) | h) | h) | h) | h) | h) | h) | h) | h <;>
    subst h <;> decide

theorem opWithEq_spec {src : List Char} {k2 k1 : TokenKind} {p p' : Nat}
    {r : Except LexError Token} (h : opWithEq src k2 k1 p = (r, p')) :
    p ≤ p' ∧
      (∀ t, r = .ok t →
        (t.kind = k2 ∨ t.kind = k1) ∧
          t.lexeme = byteSlice src t.span.start t.span.stop) ∧
      (∀ e, r = .error e → False) := by
  unfold opWithEq at h
  by_cases he : (byteDrop src p).head? = some '='
  · rw [if_pos he] at h
    cases h
    refine ⟨by omega, ?_, by intro e he'; cases he'⟩
    intro t ht
    obtain ⟨h1, h2, _⟩ := wrap_spec ht
    exact ⟨Or.inl h1, h2⟩
  · rw [if_neg he] at h
    cases h
    refine ⟨le_rfl, ?_, by intro e he'; cases he'⟩
    intro t ht
    obtain ⟨h1, h2, _⟩ := wrap_spec ht
    exact ⟨Or.inr h1, h2⟩

theorem stringLit_spec {src : List Char} {p p' : Nat}
    {r : Except LexError Token} (h : stringLit src p = (r, p')) :
    p ≤ p' ∧
      (∀ t, r = .ok t →
        t.kind = .String ∧ t.lexeme = byteSlice src t.span.start t.span.stop) ∧
      (∀ e, r = .error e → e.isTerminal = true ∧ byteDrop src p' = []) := by
  unfold stringLit at h
  have hge := stringBody_ge src p
  rcases hb : stringBody src p with ⟨q, found⟩
  rw [hb] at h hge
  cases found
  · simp only at h
    cases h
    refine ⟨hge, ?_, ?_⟩
    · intro t ht; cases ht
    · intro e he
      cases he
      exact ⟨rfl, stringBody_false_end hb⟩
  · simp only at h
    cases h
    refine ⟨hge, ?_, ?_⟩
    · intro t ht
      obtain ⟨h1, h2, _⟩ := wrap_spec ht
      exact ⟨h1, h2⟩
    · intro e he; cases he

theorem numberLit_spec {src : List Char} {p p' : Nat}
    {r : Except LexError Token} (h : numberLit src p = (r, p')) :
    p ≤ p' ∧
      (∀ t, r = .ok t →
        t.kind = .Number ∧ t.lexeme = byteSlice src t.span.start t.span.stop) ∧
      (∀ e, r = .error e → False) := by
  unfold numberLit at h
  simp only at h
  have h1 := consumeDigits_ge src p
  have h2 := consumeDigits_ge src (consumeDigits src p + 1)
  by_cases hdot : (byteDrop src (consumeDigits src p)).head? = some '.'
  · rw [if_pos hdot] at h
    by_cases hdig :
        ((((byteDrop src (consumeDigits src p)).drop 1).head?).getD
          (Char.ofNat 0)).isDigit = true
    · rw [if_pos hdig] at h
      simp only [Prod.mk.injEq] at h
      obtain ⟨hr, hp⟩ := h
      subst hr hp
      refine ⟨by omega, ?_, ?_⟩
      · intro t ht
        obtain ⟨hk, hl, _⟩ := wrap_spec ht
        exact ⟨hk, hl⟩
      · intro e he; cases he
    · rw [if_neg hdig] at h
      simp only [Prod.mk.injEq] at h
      obtain ⟨hr, hp⟩ := h
      subst hr hp
      refine ⟨by omega, ?_, ?_⟩
      · intro t ht
        obtain ⟨hk, hl, _⟩ := wrap_spec ht
        exact ⟨hk, hl⟩
      · intro e he; cases he
  · rw [if_neg hdot] at h
    simp only [Prod.mk.injEq] at h
    obtain ⟨hr, hp⟩ := h
    subst hr hp
    refine ⟨by omega, ?_, ?_⟩
    · intro t ht
      obtain ⟨hk, hl, _⟩ := wrap_spec ht
      exact ⟨hk, hl⟩
    · intro e he; cases he

theorem identifier_spec {src : List Char} {start p p' : Nat}
    {r : Except LexError Token} (h : identifier src start p = (r, p')) :
    p ≤ p' ∧
      (∀ t, r = .ok t →
        t.kind ≠ .Eof ∧ t.lexeme = byteSlice src t.span.start t.span.stop) ∧
      (∀ e, r = .error e → False) := by
  unfold identifier at h
  simp only at h
  have hge := consumeAlnum_ge src p
  cases hk : TokenKind.fromKeyword (byteSlice src start (consumeAlnum src p)) with
  | some kw =>
    rw [hk] at h
    simp only [Prod.mk.injEq] at h
    obtain ⟨hr, hp⟩ := h
    subst hr hp
    refine ⟨hge, ?_, ?_⟩
    · intro t ht
      obtain ⟨h1, h2, _⟩ := wrap_spec ht
      exact ⟨h1 ▸ fromKeyword_ne_eof hk, h2⟩
    · intro e he; cases he
  | none =>
    rw [hk] at h
    simp only [Prod.mk.injEq] at h
    obtain ⟨hr, hp⟩ := h
    subst hr hp
    refine ⟨hge, ?_, ?_⟩
    · intro t ht
      obtain ⟨h1, h2, _⟩ := wrap_spec ht
      refine ⟨?_, h2⟩
      rw [h1]
      decide
    · intro e he; cases he

theorem slash_inr_spec {src : List Char} {p p' : Nat}
    {r : Except LexError Token}
    (h : slash src p = Sum.inr (r, p')) :
    p ≤ p' ∧
      (∀ t, r = .ok t →
        t.kind = .Slash ∧ t.lexeme = byteSlice src t.span.start t.span.stop) ∧
      (∀ e, r = .error e → e.isTerminal = true ∧ byteDrop src p' = []) := by
  unfold slash at h
  by_cases h1 : (byteDrop src p).head? = some '/'
  · rw [if_pos h1] at h
    exact absurd h (by cases findNewline (byteDrop src p) <;> simp)
  · rw [if_neg h1] at h
    by_cases h2 : (byteDrop src p).head? = some '*'
    · rw [if_pos h2] at h
      have hge := blockComment_ge src p 1
      rcases hb : blockComment src p 1 with ⟨q, d⟩
      rw [hb] at h hge
      have hge' : p ≤ q := by simpa using hge
      by_cases hd : d ≠ 0
      · simp only [if_pos hd, Sum.inr.injEq, Prod.mk.injEq] at h
        obtain ⟨hr, hp⟩ := h
        subst hr hp
        refine ⟨hge', ?_, ?_⟩
        · intro t ht; cases ht
        · intro e he
          cases he
          exact ⟨rfl, blockComment_ne_end hb hd⟩
      · simp only [if_neg hd] at h
        exact absurd h (by simp)
    · rw [if_neg h2] at h
      simp only [Sum.inr.injEq] at h
      cases h
      refine ⟨le_rfl, ?_, by intro e he; cases he⟩
      intro t ht
      obtain ⟨hk, hl, _⟩ := wrap_spec ht
      exact ⟨hk, hl⟩

theorem wrap_ne_error {src : List Char} {k : TokenKind} {a b : Nat}
    {e : LexError} : wrap src k a b ≠ .error e := by
  simp [wrap]

/-- Every produced step advances the cursor, carries a non-`Eof` token whose
lexeme is the source slice over its span, and leaves no input behind a
terminal error. -/
theorem nextToken_spec (src : List Char) (pos : Nat) :
    ∀ r p', nextToken src pos = .yield r p' →
      pos < p' ∧ pos < utf8Len src ∧
      (∀ t, r = .ok t →
        t.kind ≠ .Eof ∧ t.lexeme = byteSlice src t.span.start t.span.stop) ∧
      (∀ e, r = .error e → e.isTerminal = true → byteDrop src p' = []) := by
  induction pos using nextToken.induct src with
  | case1 x hx =>
    intro r p' h
    rw [nextToken.eq_def, if_pos hx] at h
    exact absurd h (by simp)
  | case2 x hx hdrop =>
    intro r p' h
    rw [nextToken.eq_def, if_neg hx, hdrop] at h
    exact absurd h (by simp)
  | case3 x hx c tail hdrop hpunct kw hkw =>
    intro r p' h
    rw [nextToken.eq_def, if_neg hx, hdrop] at h
    simp only [if_pos hpunct, hkw, ScanStep.yield.injEq] at h
    obtain ⟨hr, hp⟩ := h
    subst hp
    have hsz := c.utf8Size_pos
    refine ⟨by omega, by omega, ?_, ?_⟩
    · intro t ht
      obtain ⟨h1, h2, _⟩ := wrap_spec (hr ▸ ht)
      exact ⟨h1 ▸ tokenKindOfChar_ne_eof hkw, h2⟩
    · intro e he
      exact absurd (hr ▸ he) wrap_ne_error
  | case4 x hx c tail hdrop hpunct hkw =>
    intro r p' h
    rw [nextToken.eq_def, if_neg hx, hdrop] at h
    simp only [if_pos hpunct, hkw] at h
    exact absurd h (by simp)
  | case5 x hx tail hdrop hpunct =>
    intro r p' h
    rw [nextToken.eq_def, if_neg hx, hdrop] at h
    rcases ho : opWithEq src .BangEqual .Bang (x + '!'.utf8Size) with ⟨r0, p0⟩
    simp only [if_neg hpunct, eq_self_iff_true, if_true, ho, ScanStep.of,
      ScanStep.yield.injEq] at h
    obtain ⟨hr, hp⟩ := h
    subst hr hp
    obtain ⟨hge, hok, herr⟩ := opWithEq_spec ho
    have hone : ('!').utf8Size = 1 := by decide
    refine ⟨by omega, by omega, ?_, ?_⟩
    · intro t ht
      obtain ⟨hk, hl⟩ := hok t ht
      exact ⟨by rcases hk with hk | hk <;> rw [hk] <;> decide, hl⟩
    · intro e he
      exact absurd (herr e he) (by simp)
  | case6 x hx tail hdrop hpunct hne1 =>
    intro r p' h
    rw [nextToken.eq_def, if_neg hx, hdrop] at h
    rcases ho : opWithEq src .EqualEqual .Equal (x + '='.utf8Size) with ⟨r0, p0⟩
    simp only [if_neg hpunct, if_neg hne1, eq_self_iff_true, if_true, ho,
      ScanStep.of, ScanStep.yield.injEq] at h
    obtain ⟨hr, hp⟩ := h
    subst hr hp
    obtain ⟨hge, hok, herr⟩ := opWithEq_spec ho
    have hone : ('=').utf8Size = 1 := by decide
    refine ⟨by omega, by omega, ?_, ?_⟩
    · intro t ht
      obtain ⟨hk, hl⟩ := hok t ht
      exact ⟨by rcases hk with hk | hk <;> rw [hk] <;> decide, hl⟩
    · intro e he
      exact absurd (herr e he) (by simp)
  | case7 x hx tail hdrop hpunct hne1 hne2 =>
    intro r p' h
    rw [nextToken.eq_def, if_neg hx, hdrop] at h
    rcases ho : opWithEq src .GreaterEqual .Greater (x + '>'.utf8Size) with
      ⟨r0, p0⟩
    simp only [if_neg hpunct, if_neg hne1, if_neg hne2, eq_self_iff_true,
      if_true, ho, ScanStep.of, ScanStep.yield.injEq] at h
    obtain ⟨hr, hp⟩ := h
    subst hr hp
    obtain ⟨hge, hok, herr⟩ := opWithEq_spec ho
    have hone : ('>').utf8Size = 1 := by decide
    refine ⟨by omega, by omega, ?_, ?_⟩
    · intro t ht
      obtain ⟨hk, hl⟩ := hok t ht
      exact ⟨by rcases hk with hk | hk <;> rw [hk] <;> decide, hl⟩
    · intro e he
      exact absurd (herr e he) (by simp)
  | case8 x hx tail hdrop hpunct hne1 hne2 hne3 =>
    intro r p' h
    rw [nextToken.eq_def, if_neg hx, hdrop] at h
    rcases ho : opWithEq src .LessEqual .Less (x + '<'.utf8Size) with ⟨r0, p0⟩
    simp only [if_neg hpunct, if_neg hne1, if_neg hne2, if_neg hne3,
      eq_self_iff_true, if_true, ho, ScanStep.of, ScanStep.yield.injEq] at h
    obtain ⟨hr, hp⟩ := h
    subst hr hp
    obtain ⟨hge, hok, herr⟩ := opWithEq_spec ho
    have hone : ('<').utf8Size = 1 := by decide
    refine ⟨by omega, by omega, ?_, ?_⟩
    · intro t ht
      obtain ⟨hk, hl⟩ := hok t ht
      exact ⟨by rcases hk with hk | hk <;> rw [hk] <;> decide, hl⟩
    · intro e he
      exact absurd (herr e he) (by simp)
  | case9 x hx tail p2 hdrop hpunct hne1 hne2 hne3 hne4 hs ih =>
    intro r p' h
    rw [nextToken.eq_def, if_neg hx, hdrop] at h
    simp only [if_neg hpunct, if_neg hne1, if_neg hne2, if_neg hne3,
      if_neg hne4, eq_self_iff_true, if_true] at h
    split at h
    case _ p2' heq =>
      rw [hs] at heq
      injection heq with heq2
      subst heq2
      obtain ⟨h1, h2, h3, h4⟩ := ih r p' h
      have hcase : x < p2 ∨ p2 = utf8Len src := by
        rcases slash_inl_ge hs with hg | hg
        · left
          have : ('/').utf8Size = 1 := by decide
          omega
        · exact Or.inr hg
      rcases hcase with hg | hg
      · exact ⟨by omega, by omega, h3, h4⟩
      · omega
    case _ rp' heq =>
      rw [hs] at heq
      cases heq
  | case10 x hx tail rp hdrop hpunct hne1 hne2 hne3 hne4 hs =>
    intro r p' h
    rw [nextToken.eq_def, if_neg hx, hdrop] at h
    simp only [if_neg hpunct, if_neg hne1, if_neg hne2, if_neg hne3,
      if_neg hne4, eq_self_iff_true, if_true] at h
    split at h
    case _ p2' heq =>
      rw [hs] at heq
      cases heq
    case _ rp' heq =>
      rw [hs] at heq
      injection heq with heq2
      subst heq2
      rcases rp with ⟨r0, p0⟩
      simp only [ScanStep.of, ScanStep.yield.injEq] at h
      obtain ⟨hr, hp⟩ := h
      subst hr hp
      obtain ⟨hge, hok, herr⟩ := slash_inr_spec hs
      have : ('/').utf8Size = 1 := by decide
      refine ⟨by omega, by omega, ?_, ?_⟩
      · intro t ht
        obtain ⟨hk, hl⟩ := hok t ht
        exact ⟨by rw [hk]; decide, hl⟩
      · intro e he _
        exact (herr e he).2
  | case11 x hx tail hdrop hpunct hne1 hne2 hne3 hne4 hne5 =>
    intro r p' h
    rw [nextToken.eq_def, if_neg hx, hdrop] at h
    rcases hsl : stringLit src (x + ('"').utf8Size) with ⟨r0, p0⟩
    simp only [if_neg hpunct, if_neg hne1, if_neg hne2, if_neg hne3,
      if_neg hne4, if_neg hne5, eq_self_iff_true, if_true, hsl, ScanStep.of,
      ScanStep.yield.injEq] at h
    obtain ⟨hr, hp⟩ := h
    subst hr hp
    obtain ⟨hge, hok, herr⟩ := stringLit_spec hsl
    have : ('"').utf8Size = 1 := by decide
    refine ⟨by omega, by omega, ?_, ?_⟩
    · intro t ht
      obtain ⟨hk, hl⟩ := hok t ht
      exact ⟨by rw [hk]; decide, hl⟩
    · intro e he _
      exact (herr e he).2
  | case12 x hx c tail hdrop hpunct hne1 hne2 hne3 hne4 hne5 hne6 hdig =>
    intro r p' h
    rw [nextToken.eq_def, if_neg hx, hdrop] at h
    rcases hnl : numberLit src (x + c.utf8Size) with ⟨r0, p0⟩
    simp only [if_neg hpunct, if_neg hne1, if_neg hne2, if_neg hne3,
      if_neg hne4, if_neg hne5, if_neg hne6, if_pos hdig, hnl, ScanStep.of,
      ScanStep.yield.injEq] at h
    obtain ⟨hr, hp⟩ := h
    subst hr hp
    obtain ⟨hge, hok, herr⟩ := numberLit_spec hnl
    have hsz := c.utf8Size_pos
    refine ⟨by omega, by omega, ?_, ?_⟩
    · intro t ht
      obtain ⟨hk, hl⟩ := hok t ht
      exact ⟨by rw [hk]; decide, hl⟩
    · intro e he
      exact absurd (herr e he) (by simp)
  | case13 x hx c tail hdrop hpunct hne1 hne2 hne3 hne4 hne5 hne6 hdig halnum =>
    intro r p' h
    rw [nextToken.eq_def, if_neg hx, hdrop] at h
    rcases hid : identifier src x (x + c.utf8Size) with ⟨r0, p0⟩
    simp only [if_neg hpunct, if_neg hne1, if_neg hne2, if_neg hne3,
      if_neg hne4, if_neg hne5, if_neg hne6, if_neg hdig, if_pos halnum, hid,
      ScanStep.of, ScanStep.yield.injEq] at h
    obtain ⟨hr, hp⟩ := h
    subst hr hp
    obtain ⟨hge, hok, herr⟩ := identifier_spec hid
    have hsz := c.utf8Size_pos
    refine ⟨by omega, by omega, ?_, ?_⟩
    · intro t ht
      exact hok t ht
    · intro e he
      exact absurd (herr e he) (by simp)
  | case14 x hx c tail hdrop hpunct hne1 hne2 hne3 hne4 hne5 hne6 hdig halnum
      hws ih =>
    intro r p' h
    rw [nextToken.eq_def, if_neg hx, hdrop] at h
    simp only [if_neg hpunct, if_neg hne1, if_neg hne2, if_neg hne3,
      if_neg hne4, if_neg hne5, if_neg hne6, if_neg hdig, if_neg halnum,
      if_pos hws] at h
    obtain ⟨h1, h2, h3, h4⟩ := ih r p' h
    have hsz := c.utf8Size_pos
    exact ⟨by omega, by omega, h3, h4⟩
  | case15 x hx c tail hdrop hpunct hne1 hne2 hne3 hne4 hne5 hne6 hdig halnum
      hws =>
    intro r p' h
    rw [nextToken.eq_def, if_neg hx, hdrop] at h
    simp only [if_neg hpunct, if_neg hne1, if_neg hne2, if_neg hne3,
      if_neg hne4, if_neg hne5, if_neg hne6, if_neg hdig, if_neg halnum,
      if_neg hws, ScanStep.yield.injEq] at h
    obtain ⟨hr, hp⟩ := h
    subst hp
    have hsz := c.utf8Size_pos
    refine ⟨by omega, by omega, ?_, ?_⟩
    · intro t ht
      rw [← hr] at ht
      cases ht
    · intro e he hterm
      rw [← hr] at he
      cases he
      simp [LexError.isTerminal] at hterm

/-- The `From<char>` panic branch is unreachable: no scan ever produces
`panicked`. -/
theorem nextToken_ne_panicked (src : List Char) (pos : Nat) :
    nextToken src pos ≠ .panicked := by
  induction pos using nextToken.induct src with
  | case1 x hx =>
    intro h
    rw [nextToken.eq_def, if_pos hx] at h
    cases h
  | case2 x hx hdrop =>
    intro h
    rw [nextToken.eq_def, if_neg hx, hdrop] at h
    cases h
  | case3 x hx c tail hdrop hpunct kw hkw =>
    intro h
    rw [nextToken.eq_def, if_neg hx, hdrop] at h
    simp only [if_pos hpunct, hkw] at h
    cases h
  | case4 x hx c tail hdrop hpunct hkw =>
    have := tokenKindOfChar_punct hpunct
    rw [hkw] at this
    simp at this
  | case5 x hx tail hdrop hpunct =>
    intro h
    rw [nextToken.eq_def, if_neg hx, hdrop] at h
    rcases ho : opWithEq src .BangEqual .Bang (x + '!'.utf8Size) with ⟨r0, p0⟩
    simp only [if_neg hpunct, eq_self_iff_true, if_true, ho, ScanStep.of] at h
    cases h
  | case6 x hx tail hdrop hpunct hne1 =>
    intro h
    rw [nextToken.eq_def, if_neg hx, hdrop] at h
    rcases ho : opWithEq src .EqualEqual .Equal (x + '='.utf8Size) with ⟨r0, p0⟩
    simp only [if_neg hpunct, if_neg hne1, eq_self_iff_true, if_true, ho,
      ScanStep.of] at h
    cases h
  | case7 x hx tail hdrop hpunct hne1 hne2 =>
    intro h
    rw [nextToken.eq_def, if_neg hx, hdrop] at h
    rcases ho : opWithEq src .GreaterEqual .Greater (x + '>'.utf8Size) with
      ⟨r0, p0⟩
    simp only [if_neg hpunct, if_neg hne1, if_neg hne2, eq_self_iff_true,
      if_true, ho, ScanStep.of] at h
    cases h
  | case8 x hx tail hdrop hpunct hne1 hne2 hne3 =>
    intro h
    rw [nextToken.eq_def, if_neg hx, hdrop] at h
    rcases ho : opWithEq src .LessEqual .Less (x + '<'.utf8Size) with ⟨r0, p0⟩
    simp only [if_neg hpunct, if_neg hne1, if_neg hne2, if_neg hne3,
      eq_self_iff_true, if_true, ho, ScanStep.of] at h
    cases h
  | case9 x hx tail p2 hdrop hpunct hne1 hne2 hne3 hne4 hs ih =>
    intro h
    rw [nextToken.eq_def, if_neg hx, hdrop] at h
    simp only [if_neg hpunct, if_neg hne1, if_neg hne2, if_neg hne3,
      if_neg hne4, eq_self_iff_true, if_true] at h
    split at h
    case _ p2' heq =>
      rw [hs] at heq
      injection heq with heq2
      subst heq2
      exact ih h
    case _ rp' heq =>
      rw [hs] at heq
      cases heq
  | case10 x hx tail rp hdrop hpunct hne1 hne2 hne3 hne4 hs =>
    intro h
    rw [nextToken.eq_def, if_neg hx, hdrop] at h
    simp only [if_neg hpunct, if_neg hne1, if_neg hne2, if_neg hne3,
      if_neg hne4, eq_self_iff_true, if_true] at h
    split at h
    case _ p2' heq =>
      rw [hs] at heq
      cases heq
    case _ rp' heq =>
      rcases rp' with ⟨r0, p0⟩
      simp only [ScanStep.of] at h
      cases h
  | case11 x hx tail hdrop hpunct hne1 hne2 hne3 hne4 hne5 =>
    intro h
    rw [nextToken.eq_def, if_neg hx, hdrop] at h
    rcases hsl : stringLit src (x + ('"').utf8Size) with ⟨r0, p0⟩
    simp only [if_neg hpunct, if_neg hne1, if_neg hne2, if_neg hne3,
      if_neg hne4, if_neg hne5, eq_self_iff_true, if_true, hsl,
      ScanStep.of] at h
    cases h
  | case12 x hx c tail hdrop hpunct hne1 hne2 hne3 hne4 hne5 hne6 hdig =>
    intro h
    rw [nextToken.eq_def, if_neg hx, hdrop] at h
    rcases hnl : numberLit src (x + c.utf8Size) with ⟨r0, p0⟩
    simp only [if_neg hpunct, if_neg hne1, if_neg hne2, if_neg hne3,
      if_neg hne4, if_neg hne5, if_neg hne6, if_pos hdig, hnl,
      ScanStep.of] at h
    cases h
  | case13 x hx c tail hdrop hpunct hne1 hne2 hne3 hne4 hne5 hne6 hdig halnum =>
    intro h
    rw [nextToken.eq_def, if_neg hx, hdrop] at h
    rcases hid : identifier src x (x + c.utf8Size) with ⟨r0, p0⟩
    simp only [if_neg hpunct, if_neg hne1, if_neg hne2, if_neg hne3,
      if_neg hne4, if_neg hne5, if_neg hne6, if_neg hdig, if_pos halnum, hid,
      ScanStep.of] at h
    cases h
  | case14 x hx c tail hdrop hpunct hne1 hne2 hne3 hne4 hne5 hne6 hdig halnum
      hws ih =>
    intro h
    rw [nextToken.eq_def, if_neg hx, hdrop] at h
    simp only [if_neg hpunct, if_neg hne1, if_neg hne2, if_neg hne3,
      if_neg hne4, if_neg hne5, if_neg hne6, if_neg hdig, if_neg halnum,
      if_pos hws] at h
    exact ih h
  | case15 x hx c tail hdrop hpunct hne1 hne2 hne3 hne4 hne5 hne6 hdig halnum
      hws =>
    intro h
    rw [nextToken.eq_def, if_neg hx, hdrop] at h
    simp only [if_neg hpunct, if_neg hne1, if_neg hne2, if_neg hne3,
      if_neg hne4, if_neg hne5, if_neg hne6, if_neg hdig, if_neg halnum,
      if_neg hws] at h
    cases h

/-- Pulling the iterator to exhaustion: the list of all items produced by
repeated `Lexer::next_token` calls from a given cursor. -/
def run (src : List Char) (pos : Nat) : List (Except LexError Token) :=
  match h : nextToken src pos with
  | .done => []
  | .panicked => []
  | .yield r p' => r :: run src p'
termination_by utf8Len src - pos
decreasing_by
  have := nextToken_spec src pos r p' h
  omega

/-- `Lexer::tokens`: the scan of the whole input, chained with the single
final `Eof` token at the byte length of the input. -/
def Lexer.tokens (src : List Char) : List (Except LexError Token) :=
  run src 0 ++ [Except.ok (Token.eof (utf8Len src))]

theorem nextToken_done {src : List Char} {pos : Nat}
    (h : byteDrop src pos = []) : nextToken src pos = .done := by
  rw [nextToken.eq_def]
  by_cases hx : utf8Len src ≤ pos
  · rw [if_pos hx]
  · rw [if_neg hx, h]

theorem run_empty {src : List Char} {pos : Nat}
    (h : byteDrop src pos = []) : run src pos = [] := by
  rw [run.eq_def, nextToken_done h]

theorem run_cons {src : List Char} {pos p' : Nat} {r : Except LexError Token}
    (h : nextToken src pos = .yield r p') :
    run src pos = r :: run src p' := by
  rw [run.eq_def, h]

/-- Every successful item of a scan is a non-`Eof` token whose lexeme is the
source slice over its span. -/
theorem run_ok_spec (src : List Char) (pos : Nat) :
    ∀ r ∈ run src pos, ∀ t, r = .ok t →
      t.kind ≠ .Eof ∧ t.lexeme = byteSlice src t.span.start t.span.stop := by
  induction pos using run.induct src with
  | case1 pos h =>
    rw [run.eq_def, h]
    intro r hr
    cases hr
  | case2 pos h =>
    rw [run.eq_def, h]
    intro r hr
    cases hr
  | case3 pos r0 p' h ih =>
    rw [run.eq_def, h]
    intro r hr t ht
    have hspec := nextToken_spec src pos r0 p' h
    rcases List.mem_cons.mp hr with hr | hr
    · subst hr
      exact hspec.2.2.1 t ht
    · exact ih r hr t ht

/-- After a terminal error nothing else is produced in the same run. -/
theorem run_terminal_last (src : List Char) (pos : Nat) :
    ∀ pre e rest, run src pos = pre ++ .error e :: rest →
      e.isTerminal = true → rest = [] := by
  induction pos using run.induct src with
  | case1 pos h =>
    rw [run.eq_def, h]
    intro pre e rest hsplit _
    exact absurd hsplit (by simp)
  | case2 pos h =>
    rw [run.eq_def, h]
    intro pre e rest hsplit _
    exact absurd hsplit (by simp)
  | case3 pos r0 p' h ih =>
    rw [run.eq_def, h]
    intro pre e rest hsplit hterm
    cases pre with
    | nil =>
      simp only [List.nil_append, List.cons.injEq] at hsplit
      obtain ⟨hr, hrest⟩ := hsplit
      have hend := (nextToken_spec src pos r0 p' h).2.2.2 e hr hterm
      rw [← hrest, run_empty hend]
    | cons q pre' =>
      simp only [List.cons_append, List.cons.injEq] at hsplit
      exact ih pre' e rest hsplit.2 hterm

/-- Fuel-indexed mirror of `blockComment` (structural recursion on fuel, so
that concrete scans reduce inside `decide`). -/
def blockCommentF : Nat → List Char → Nat → Int → Nat × Int
  | 0, _, pos, depth => (pos, depth)
  | fuel + 1, src, pos, depth =>
    match byteDrop src pos with
    | [] => (pos, depth)
    | c :: _ =>
      if c = '/' ∧ (byteDrop src (pos + c.utf8Size)).head? = some '*' then
        blockCommentF fuel src (pos + c.utf8Size + 1) (depth + 1)
      else if c = '*' ∧ (byteDrop src (pos + c.utf8Size)).head? = some '/' then
        if depth - 1 = 0 then (pos + c.utf8Size + 1, depth - 1)
        else blockCommentF fuel src (pos + c.utf8Size + 1) (depth - 1)
      else blockCommentF fuel src (pos + c.utf8Size) depth

theorem blockCommentF_eq (src : List Char) :
    ∀ (fuel : Nat) (pos : Nat) (depth : Int), utf8Len src - pos < fuel →
      blockCommentF fuel src pos depth = blockComment src pos depth := by
  intro fuel
  induction fuel with
  | zero => intro pos depth h; omega
  | succ f ih =>
    intro pos depth h
    rw [blockCommentF]
    cases hd : byteDrop src pos with
    | nil => rw [blockComment.eq_def, hd]
    | cons c tl =>
      have hlt := byteDrop_pos_lt hd
      have hsz := c.utf8Size_pos
      rw [blockComment.eq_def, hd]
      simp only
      by_cases h1 : c = '/' ∧ (byteDrop src (pos + c.utf8Size)).head? = some '*'
      · rw [if_pos h1, if_pos h1]
        exact ih (pos + c.utf8Size + 1) (depth + 1) (by omega)
      · rw [if_neg h1, if_neg h1]
        by_cases h2 : c = '*' ∧ (byteDrop src (pos + c.utf8Size)).head? = some '/'
        · rw [if_pos h2, if_pos h2]
          by_cases h3 : depth - 1 = 0
          · rw [if_pos h3, if_pos h3]
          · rw [if_neg h3, if_neg h3]
            exact ih (pos + c.utf8Size + 1) (depth - 1) (by omega)
        · rw [if_neg h2, if_neg h2]
          exact ih (pos + c.utf8Size) depth (by omega)

/-- Fuel-indexed mirror of `stringBody`. -/
def stringBodyF : Nat → List Char → Nat → Nat × Bool
  | 0, _, pos => (pos, false)
  | fuel + 1, src, pos =>
    match byteDrop src pos with
    | [] => (pos, false)
    | c :: _ =>
      if c = '"' then (pos + c.utf8Size, true)
      else stringBodyF fuel src (pos + c.utf8Size)

theorem stringBodyF_eq (src : List Char) :
    ∀ (fuel : Nat) (pos : Nat), utf8Len src - pos < fuel →
      stringBodyF fuel src pos = stringBody src pos := by
  intro fuel
  induction fuel with
  | zero => intro pos h; omega
  | succ f ih =>
    intro pos h
    rw [stringBodyF]
    cases hd : byteDrop src pos with
    | nil => rw [stringBody.eq_def, hd]
    | cons c tl =>
      have hlt := byteDrop_pos_lt hd
      have hsz := c.utf8Size_pos
      rw [stringBody.eq_def, hd]
      simp only
      by_cases h1 : c = '"'
      · rw [if_pos h1, if_pos h1]
      · rw [if_neg h1, if_neg h1]
        exact ih (pos + c.utf8Size) (by omega)

/-- Fuel-indexed mirror of `consumeDigits`. -/
def consumeDigitsF : Nat → List Char → Nat → Nat
  | 0, _, pos => pos
  | fuel + 1, src, pos =>
    match byteDrop src pos with
    | [] => pos
    | c :: _ =>
      if c.isDigit then consumeDigitsF fuel src (pos + c.utf8Size) else pos

theorem consumeDigitsF_eq (src : List Char) :
    ∀ (fuel : Nat) (pos : Nat), utf8Len src - pos < fuel →
      consumeDigitsF fuel src pos = consumeDigits src pos := by
  intro fuel
  induction fuel with
  | zero => intro pos h; omega
  | succ f ih =>
    intro pos h
    rw [consumeDigitsF]
    cases hd : byteDrop src pos with
    | nil => rw [consumeDigits.eq_def, hd]
    | cons c tl =>
      have hlt := byteDrop_pos_lt hd
      have hsz := c.utf8Size_pos
      rw [consumeDigits.eq_def, hd]
      simp only
      by_cases h1 : c.isDigit
      · rw [if_pos h1, if_pos h1]
        exact ih (pos + c.utf8Size) (by omega)
      · rw [if_neg h1, if_neg h1]

/-- Fuel-indexed mirror of `consumeAlnum`. -/
def consumeAlnumF : Nat → List Char → Nat → Nat
  | 0, _, pos => pos
  | fuel + 1, src, pos =>
    match byteDrop src pos with
    | [] => pos
    | c :: _ =>
      if isAlphanumeric c then consumeAlnumF fuel src (pos + c.utf8Size)
      else pos

theorem consumeAlnumF_eq (src : List Char) :
    ∀ (fuel : Nat) (pos : Nat), utf8Len src - pos < fuel →
      consumeAlnumF fuel src pos = consumeAlnum src pos := by
  intro fuel
  induction fuel with
  | zero => intro pos h; omega
  | succ f ih =>
    intro pos h
    rw [consumeAlnumF]
    cases hd : byteDrop src pos with
    | nil => rw [consumeAlnum.eq_def, hd]
    | cons c tl =>
      have hlt := byteDrop_pos_lt hd
      have hsz := c.utf8Size_pos
      rw [consumeAlnum.eq_def, hd]
      simp only
      by_cases h1 : isAlphanumeric c
      · rw [if_pos h1, if_pos h1]
        exact ih (pos + c.utf8Size) (by omega)
      · rw [if_neg h1, if_neg h1]

/-- Fuel-indexed mirror of `slash`. -/
def slashF (fuel : Nat) (src : List Char) (pos : Nat) :
    Sum Nat (Except LexError Token × Nat) :=
  let start := pos - 1
  if (byteDrop src pos).head? = some '/' then
    Sum.inl (match findNewline (byteDrop src pos) with
      | some i => pos + i
      | none => utf8Len src)
  else if (byteDrop src pos).head? = some '*' then
    match blockCommentF fuel src pos 1 with
    | (p2, depth) =>
      if depth ≠ 0 then
        Sum.inr (.error (.UnterminatedBlockComment src ⟨start, p2 - start⟩), p2)
      else
        Sum.inl p2
  else
    Sum.inr (wrap src .Slash start pos, pos)

theorem slashF_eq (src : List Char) (fuel pos : Nat)
    (h : utf8Len src - pos < fuel) : slashF fuel src pos = slash src pos := by
  unfold slashF slash
  rw [blockCommentF_eq src fuel pos 1 h]

/-- Fuel-indexed mirror of `stringLit`. -/
def stringLitF (fuel : Nat) (src : List Char) (pos : Nat) :
    Except LexError Token × Nat :=
  let start := pos - 1
  match stringBodyF fuel src pos with
  | (p2, true) => (wrap src .String start p2, p2)
  | (p2, false) =>
    (.error (.UnterminatedString src ⟨start, max (p2 - start) 1⟩), p2)

theorem stringLitF_eq (src : List Char) (fuel pos : Nat)
    (h : utf8Len src - pos < fuel) :
    stringLitF fuel src pos = stringLit src pos := by
  unfold stringLitF stringLit
  rw [stringBodyF_eq src fuel pos h]

/-- Fuel-indexed mirror of `numberLit`. -/
def numberLitF (fuel : Nat) (src : List Char) (pos : Nat) :
    Except LexError Token × Nat :=
  let start := pos - 1
  let p1 := consumeDigitsF fuel src pos
  let p2 :=
    if (byteDrop src p1).head? = some '.' then
      let c := (((byteDrop src p1).drop 1).head?).getD (Char.ofNat 0)
      if c.isDigit then consumeDigitsF fuel src (p1 + 1) else p1
    else p1
  (wrap src .Number start p2, p2)

theorem numberLitF_eq (src : List Char) (fuel pos : Nat)
    (h : utf8Len src - pos < fuel) (h2 : utf8Len src - (consumeDigits src pos + 1) < fuel) :
    numberLitF fuel src pos = numberLit src pos := by
  unfold numberLitF numberLit
  dsimp only
  rw [consumeDigitsF_eq src fuel pos h,
    consumeDigitsF_eq src fuel (consumeDigits src pos + 1) h2]

/-- Fuel-indexed mirror of `identifier`. -/
def identifierF (fuel : Nat) (src : List Char) (start pos : Nat) :
    Except LexError Token × Nat :=
  let p := consumeAlnumF fuel src pos
  match TokenKind.fromKeyword (byteSlice src start p) with
  | some kw => (wrap src kw start p, p)
  | none => (wrap src .Identifier start p, p)

theorem identifierF_eq (src : List Char) (fuel start pos : Nat)
    (h : utf8Len src - pos < fuel) :
    identifierF fuel src start pos = identifier src start pos := by
  unfold identifierF identifier
  rw [consumeAlnumF_eq src fuel pos h]

/-- Fuel-indexed mirror of `nextToken`. -/
def nextTokenF : Nat → List Char → Nat → ScanStep
  | 0, _, _ => .done
  | fuel + 1, src, pos =>
    if utf8Len src ≤ pos then .done
    else
      match byteDrop src pos with
      | [] => .done
      | c :: _ =>
        if punctChar c then
          match tokenKindOfChar c with
          | some kind =>
            .yield (wrap src kind pos (pos + c.utf8Size)) (pos + c.utf8Size)
          | none => .panicked
        else if c = '!' then
          ScanStep.of (opWithEq src .BangEqual .Bang (pos + c.utf8Size))
        else if c = '=' then
          ScanStep.of (opWithEq src .EqualEqual .Equal (pos + c.utf8Size))
        else if c = '>' then
          ScanStep.of (opWithEq src .GreaterEqual .Greater (pos + c.utf8Size))
        else if c = '<' then
          ScanStep.of (opWithEq src .LessEqual .Less (pos + c.utf8Size))
        else if c = '/' then
          match slashF fuel src (pos + c.utf8Size) with
          | Sum.inl p2 => nextTokenF fuel src p2
          | Sum.inr rp => ScanStep.of rp
        else if c = '"' then
          ScanStep.of (stringLitF fuel src (pos + c.utf8Size))
        else if c.isDigit then
          ScanStep.of (numberLitF fuel src (pos + c.utf8Size))
        else if isAlphanumeric c then
          ScanStep.of (identifierF fuel src pos (pos + c.utf8Size))
        else if c = '\n' ∨ c = '\r' ∨ c = ' ' ∨ c = '\t' then
          nextTokenF fuel src (pos + c.utf8Size)
        else
          .yield
            (.error (.UnexpectedChar src
              ⟨pos + c.utf8Size - c.utf8Size, c.utf8Size⟩ c))
            (pos + c.utf8Size)

theorem nextToken_slash_inl {src : List Char} {pos p2 : Nat}
    {tail : List Char} (hx : ¬utf8Len src ≤ pos)
    (hdrop : byteDrop src pos = '/' :: tail)
    (hsl : slash src (pos + ('/').utf8Size) = Sum.inl p2) :
    nextToken src pos = nextToken src p2 := by
  conv_lhs => rw [nextToken.eq_def]
  rw [if_neg hx, hdrop]
  simp only [show punctChar '/' = false by decide, Bool.false_eq_true,
    if_false, show ('/' = '!') = False by simp, show ('/' = '=') = False by simp,
    show ('/' = '>') = False by simp, show ('/' = '<') = False by simp,
    eq_self_iff_true, if_true]
  split
  case _ p2' heq =>
    rw [hsl] at heq
    injection heq with heq2
    rw [heq2]
  case _ rp' heq =>
    rw [hsl] at heq
    cases heq

theorem nextToken_slash_inr {src : List Char} {pos : Nat}
    {tail : List Char} {rp : Except LexError Token × Nat}
    (hx : ¬utf8Len src ≤ pos) (hdrop : byteDrop src pos = '/' :: tail)
    (hsl : slash src (pos + ('/').utf8Size) = Sum.inr rp) :
    nextToken src pos = ScanStep.of rp := by
  conv_lhs => rw [nextToken.eq_def]
  rw [if_neg hx, hdrop]
  simp only [show punctChar '/' = false by decide, Bool.false_eq_true,
    if_false, show ('/' = '!') = False by simp, show ('/' = '=') = False by simp,
    show ('/' = '>') = False by simp, show ('/' = '<') = False by simp,
    eq_self_iff_true, if_true]
  split
  case _ p2' heq =>
    rw [hsl] at heq
    cases heq
  case _ rp' heq =>
    rw [hsl] at heq
    injection heq with heq2
    rw [heq2]

theorem nextTokenF_eq (src : List Char) (pos : Nat) :
    ∀ fuel, utf8Len src - pos < fuel →
      nextTokenF fuel src pos = nextToken src pos := by
  induction pos using nextToken.induct src with
  | case1 x hx =>
    intro fuel hfuel
    cases fuel with
    | zero => omega
    | succ f =>
      rw [nextTokenF, if_pos hx, nextToken.eq_def, if_pos hx]
  | case2 x hx hdrop =>
    intro fuel hfuel
    cases fuel with
    | zero => omega
    | succ f =>
      rw [nextTokenF, if_neg hx, hdrop, nextToken.eq_def, if_neg hx, hdrop]
  | case3 x hx c tail hdrop hpunct kw hkw =>
    intro fuel hfuel
    cases fuel with
    | zero => omega
    | succ f =>
      rw [nextTokenF, if_neg hx, hdrop, nextToken.eq_def, if_neg hx, hdrop]
      simp only [if_pos hpunct, hkw]
  | case4 x hx c tail hdrop hpunct hkw =>
    intro fuel hfuel
    cases fuel with
    | zero => omega
    | succ f =>
      rw [nextTokenF, if_neg hx, hdrop, nextToken.eq_def, if_neg hx, hdrop]
      simp only [if_pos hpunct, hkw]
  | case5 x hx tail hdrop hpunct =>
    intro fuel hfuel
    cases fuel with
    | zero => omega
    | succ f =>
      rw [nextTokenF, if_neg hx, hdrop, nextToken.eq_def, if_neg hx, hdrop]
      simp only [if_neg hpunct, eq_self_iff_true, if_true]
  | case6 x hx tail hdrop hpunct hne1 =>
    intro fuel hfuel
    cases fuel with
    | zero => omega
    | succ f =>
      rw [nextTokenF, if_neg hx, hdrop, nextToken.eq_def, if_neg hx, hdrop]
      simp only [if_neg hpunct, if_neg hne1, eq_self_iff_true, if_true]
  | case7 x hx tail hdrop hpunct hne1 hne2 =>
    intro fuel hfuel
    cases fuel with
    | zero => omega
    | succ f =>
      rw [nextTokenF, if_neg hx, hdrop, nextToken.eq_def, if_neg hx, hdrop]
      simp only [if_neg hpunct, if_neg hne1, if_neg hne2, eq_self_iff_true,
        if_true]
  | case8 x hx tail hdrop hpunct hne1 hne2 hne3 =>
    intro fuel hfuel
    cases fuel with
    | zero => omega
    | succ f =>
      rw [nextTokenF, if_neg hx, hdrop, nextToken.eq_def, if_neg hx, hdrop]
      simp only [if_neg hpunct, if_neg hne1, if_neg hne2, if_neg hne3,
        eq_self_iff_true, if_true]
  | case9 x hx tail p2 hdrop hpunct hne1 hne2 hne3 hne4 hs ih =>
    intro fuel hfuel
    cases fuel with
    | zero => omega
    | succ f =>
      have hx' : x < utf8Len src := by omega
      have hsf : slashF f src (x + ('/').utf8Size) =
          slash src (x + ('/').utf8Size) := by
        apply slashF_eq
        have : ('/').utf8Size = 1 := by decide
        omega
      rw [nextTokenF, if_neg hx, hdrop]
      simp only [if_neg hpunct, if_neg hne1, if_neg hne2, if_neg hne3,
        if_neg hne4, eq_self_iff_true, if_true, hsf, hs]
      rw [nextToken_slash_inl hx hdrop hs]
      apply ih
      have hone : ('/').utf8Size = 1 := by decide
      rcases slash_inl_ge hs with hg | hg <;> omega
  | case10 x hx tail rp hdrop hpunct hne1 hne2 hne3 hne4 hs =>
    intro fuel hfuel
    cases fuel with
    | zero => omega
    | succ f =>
      have hsf : slashF f src (x + ('/').utf8Size) =
          slash src (x + ('/').utf8Size) := by
        apply slashF_eq
        have : ('/').utf8Size = 1 := by decide
        omega
      rw [nextTokenF, if_neg hx, hdrop]
      simp only [if_neg hpunct, if_neg hne1, if_neg hne2, if_neg hne3,
        if_neg hne4, eq_self_iff_true, if_true, hsf, hs]
      rw [nextToken_slash_inr hx hdrop hs]
  | case11 x hx tail hdrop hpunct hne1 hne2 hne3 hne4 hne5 =>
    intro fuel hfuel
    cases fuel with
    | zero => omega
    | succ f =>
      have hsf : stringLitF f src (x + ('"').utf8Size) =
          stringLit src (x + ('"').utf8Size) := by
        apply stringLitF_eq
        have : ('"').utf8Size = 1 := by decide
        omega
      rw [nextTokenF, if_neg hx, hdrop, nextToken.eq_def, if_neg hx, hdrop]
      simp only [if_neg hpunct, if_neg hne1, if_neg hne2, if_neg hne3,
        if_neg hne4, if_neg hne5, eq_self_iff_true, if_true, hsf]
  | case12 x hx c tail hdrop hpunct hne1 hne2 hne3 hne4 hne5 hne6 hdig =>
    intro fuel hfuel
    cases fuel with
    | zero => omega
    | succ f =>
      have hsz := c.utf8Size_pos
      have hcd := consumeDigits_ge src (x + c.utf8Size)
      have hsf : numberLitF f src (x + c.utf8Size) =
          numberLit src (x + c.utf8Size) := by
        apply numberLitF_eq <;> omega
      rw [nextTokenF, if_neg hx, hdrop, nextToken.eq_def, if_neg hx, hdrop]
      simp only [if_neg hpunct, if_neg hne1, if_neg hne2, if_neg hne3,
        if_neg hne4, if_neg hne5, if_neg hne6, if_pos hdig, hsf]
  | case13 x hx c tail hdrop hpunct hne1 hne2 hne3 hne4 hne5 hne6 hdig halnum =>
    intro fuel hfuel
    cases fuel with
    | zero => omega
    | succ f =>
      have hsz := c.utf8Size_pos
      have hsf : identifierF f src x (x + c.utf8Size) =
          identifier src x (x + c.utf8Size) := by
        apply identifierF_eq
        omega
      rw [nextTokenF, if_neg hx, hdrop, nextToken.eq_def, if_neg hx, hdrop]
      simp only [if_neg hpunct, if_neg hne1, if_neg hne2, if_neg hne3,
        if_neg hne4, if_neg hne5, if_neg hne6, if_neg hdig, if_pos halnum, hsf]
  | case14 x hx c tail hdrop hpunct hne1 hne2 hne3 hne4 hne5 hne6 hdig halnum
      hws ih =>
    intro fuel hfuel
    cases fuel with
    | zero => omega
    | succ f =>
      have hsz := c.utf8Size_pos
      rw [nextTokenF, if_neg hx, hdrop, nextToken.eq_def, if_neg hx, hdrop]
      simp only [if_neg hpunct, if_neg hne1, if_neg hne2, if_neg hne3,
        if_neg hne4, if_neg hne5, if_neg hne6, if_neg hdig, if_neg halnum,
        if_pos hws]
      exact ih f (by omega)
  | case15 x hx c tail hdrop hpunct hne1 hne2 hne3 hne4 hne5 hne6 hdig halnum
      hws =>
    intro fuel hfuel
    cases fuel with
    | zero => omega
    | succ f =>
      rw [nextTokenF, if_neg hx, hdrop, nextToken.eq_def, if_neg hx, hdrop]
      simp only [if_neg hpunct, if_neg hne1, if_neg hne2, if_neg hne3,
        if_neg hne4, if_neg hne5, if_neg hne6, if_neg hdig, if_neg halnum,
        if_neg hws]

/-- Fuel-indexed mirror of `run`. -/
def runF : Nat → List Char → Nat → List (Except LexError Token)
  | 0, _, _ => []
  | fuel + 1, src, pos =>
    match nextTokenF (fuel + 1) src pos with
    | .done => []
    | .panicked => []
    | .yield r p' => r :: runF fuel src p'

theorem runF_eq (src : List Char) :
    ∀ (fuel pos : Nat), utf8Len src - pos < fuel →
      runF fuel src pos = run src pos := by
  intro fuel
  induction fuel with
  | zero => intro pos h; omega
  | succ f ih =>
    intro pos h
    rw [runF, nextTokenF_eq src pos (f + 1) h]
    cases hnt : nextToken src pos with
    | done => rw [run.eq_def, hnt]
    | panicked => rw [run.eq_def, hnt]
    | yield r p' =>
      rw [run.eq_def, hnt]
      simp only
      obtain ⟨h1, h2, _, _⟩ := nextToken_spec src pos r p' hnt
      rw [ih p' (by omega)]

/-- Evaluation form of `Lexer::tokens` via the fuel mirror. -/
theorem tokens_eval (src : List Char) :
    Lexer.tokens src =
      runF (utf8Len src + 1) src 0 ++ [Except.ok (Token.eof (utf8Len src))] := by
  unfold Lexer.tokens
  rw [runF_eq src (utf8Len src + 1) 0 (by omega)]

theorem byteTake_zero (s : List Char) : byteTake s 0 = [] := by
  cases s <;> rfl

theorem byteSlice_self (s : List Char) (n : Nat) : byteSlice s n n = [] := by
  unfold byteSlice
  rw [Nat.sub_self, byteTake_zero]

theorem opWithEq_pos {src : List Char} {p : Nat} (k2 k1 : TokenKind)
    (h : (byteDrop src p).head? = some '=') :
    opWithEq src k2 k1 p = (wrap src k2 (p + 1 - 2) (p + 1), p + 1) := by
  unfold opWithEq
  rw [if_pos h]

theorem opWithEq_neg {src : List Char} {p : Nat} (k2 k1 : TokenKind)
    (h : (byteDrop src p).head? ≠ some '=') :
    opWithEq src k2 k1 p = (wrap src k1 (p - 1) p, p) := by
  unfold opWithEq
  rw [if_neg h]

theorem nextToken_bang {src : List Char} {pos : Nat} {tail : List Char}
    (hdrop : byteDrop src pos = '!' :: tail) :
    nextToken src pos =
      ScanStep.of (opWithEq src .BangEqual .Bang (pos + 1)) := by
  have hx : ¬utf8Len src ≤ pos := by have := byteDrop_pos_lt hdrop; omega
  rw [nextToken.eq_def, if_neg hx, hdrop]
  simp only [show punctChar '!' = false by decide, Bool.false_eq_true,
    if_false, eq_self_iff_true, if_true, show ('!').utf8Size = 1 by decide]

theorem nextToken_equal {src : List Char} {pos : Nat} {tail : List Char}
    (hdrop : byteDrop src pos = '=' :: tail) :
    nextToken src pos =
      ScanStep.of (opWithEq src .EqualEqual .Equal (pos + 1)) := by
  have hx : ¬utf8Len src ≤ pos := by have := byteDrop_pos_lt hdrop; omega
  rw [nextToken.eq_def, if_neg hx, hdrop]
  simp only [show punctChar '=' = false by decide, Bool.false_eq_true,
    if_false, show ('=' = '!') = False by simp, eq_self_iff_true, if_true,
    show ('=').utf8Size = 1 by decide]

theorem nextToken_greater {src : List Char} {pos : Nat} {tail : List Char}
    (hdrop : byteDrop src pos = '>' :: tail) :
    nextToken src pos =
      ScanStep.of (opWithEq src .GreaterEqual .Greater (pos + 1)) := by
  have hx : ¬utf8Len src ≤ pos := by have := byteDrop_pos_lt hdrop; omega
  rw [nextToken.eq_def, if_neg hx, hdrop]
  simp only [show punctChar '>' = false by decide, Bool.false_eq_true,
    if_false, show ('>' = '!') = False by simp, show ('>' = '=') = False by simp,
    eq_self_iff_true, if_true, show ('>').utf8Size = 1 by decide]

theorem nextToken_less {src : List Char} {pos : Nat} {tail : List Char}
    (hdrop : byteDrop src pos = '<' :: tail) :
    nextToken src pos =
      ScanStep.of (opWithEq src .LessEqual .Less (pos + 1)) := by
  have hx : ¬utf8Len src ≤ pos := by have := byteDrop_pos_lt hdrop; omega
  rw [nextToken.eq_def, if_neg hx, hdrop]
  simp only [show punctChar '<' = false by decide, Bool.false_eq_true,
    if_false, show ('<' = '!') = False by simp, show ('<' = '=') = False by simp,
    show ('<' = '>') = False by simp, eq_self_iff_true, if_true,
    show ('<').utf8Size = 1 by decide]

/-- The behavior the claim describes for one lookahead operator, stated for
`nextToken`: with `=` following, both characters are consumed and the
two-character kind is produced; otherwise the one-character kind. -/
def OpClaim (c : Char) (k2 k1 : TokenKind) : Prop :=
  ∀ (src : List Char) (pos : Nat) (tail : List Char),
    byteDrop src pos = c :: tail →
    (tail.head? = some '=' →
      nextToken src pos =
        .yield (wrap src k2 pos (pos + 2)) (pos + 2)) ∧
    (tail.head? ≠ some '=' →
      nextToken src pos =
        .yield (wrap src k1 pos (pos + 1)) (pos + 1))

theorem opClaim_of (c : Char) (k2 k1 : TokenKind) (hsz : c.utf8Size = 1)
    (hred : ∀ src pos tail, byteDrop src pos = c :: tail →
      nextToken src pos = ScanStep.of (opWithEq src k2 k1 (pos + 1))) :
    OpClaim c k2 k1 := by
  intro src pos tail hdrop
  have hstep : byteDrop src (pos + 1) = tail := by
    have h := byteDrop_step hdrop
    rw [hsz] at h
    exact h
  constructor
  · intro hy
    rw [hred src pos tail hdrop, opWithEq_pos k2 k1 (by rw [hstep]; exact hy)]
    simp only [ScanStep.of]
    have h1 : pos + 1 + 1 - 2 = pos := by omega
    have h2 : pos + 1 + 1 = pos + 2 := by omega
    rw [h1, h2]
  · intro hy
    rw [hred src pos tail hdrop, opWithEq_neg k2 k1 (by rw [hstep]; exact hy)]
    simp only [ScanStep.of]
    have h1 : pos + 1 - 1 = pos := by omega
    rw [h1]

/-- C1: scanning any input (the empty input included) yields exactly one
`Eof` item: the scan body contains no `Eof` token, the final item is the
single `Eof` token, and its span is `(len s, len s)`. -/
theorem C1_terminal_eof (src : List Char) :
    ∃ body, Lexer.tokens src = body ++ [Except.ok (Token.eof (utf8Len src))] ∧
      (∀ r ∈ body, ∀ t, r = Except.ok t → t.kind ≠ TokenKind.Eof) ∧
      (Token.eof (utf8Len src)).kind = TokenKind.Eof ∧
      (Token.eof (utf8Len src)).span = ⟨utf8Len src, utf8Len src⟩ := by
  refine ⟨run src 0, rfl, ?_, rfl, rfl⟩
  intro r hr t ht
  exact (run_ok_spec src 0 r hr t ht).1

/-- C1 witness: the decomposition applied to the empty input. -/
theorem C1_terminal_eof_witness :
    ∃ body, Lexer.tokens [] = body ++ [Except.ok (Token.eof (utf8Len []))] ∧
      (∀ r ∈ body, ∀ t, r = Except.ok t → t.kind ≠ TokenKind.Eof) ∧
      (Token.eof (utf8Len [])).kind = TokenKind.Eof ∧
      (Token.eof (utf8Len [])).span = ⟨utf8Len [], utf8Len []⟩ :=
  C1_terminal_eof []

/-- C2: every non-`Eof` token of a scan has as lexeme exactly the source
slice over its span (`s[t.span.start..t.span.end] == t.lexeme`). -/
theorem C2_lexeme_is_source_slice (src : List Char)
    (r : Except LexError Token) (t : Token) (hmem : r ∈ Lexer.tokens src)
    (hok : r = Except.ok t) (hne : t.kind ≠ TokenKind.Eof) :
    t.lexeme = byteSlice src t.span.start t.span.stop := by
  unfold Lexer.tokens at hmem
  rcases List.mem_append.mp hmem with hm | hm
  · exact (run_ok_spec src 0 r hm t hok).2
  · simp only [List.mem_singleton] at hm
    subst hm
    cases hok
    exact absurd rfl hne

/-- C2 witness: the `var` keyword token of `"var x"` is a view of bytes
`[0, 3)` of the source. -/
theorem C2_lexeme_is_source_slice_witness :
    (Except.ok (⟨.Var, "var".data, ⟨0, 3⟩⟩ : Token) ∈
      Lexer.tokens "var x".data) ∧
    (⟨.Var, "var".data, ⟨0, 3⟩⟩ : Token).lexeme =
      byteSlice "var x".data (⟨.Var, "var".data, ⟨0, 3⟩⟩ : Token).span.start
        (⟨.Var, "var".data, ⟨0, 3⟩⟩ : Token).span.stop := by
  have hmem : Except.ok (⟨.Var, "var".data, ⟨0, 3⟩⟩ : Token) ∈
      Lexer.tokens "var x".data := by
    rw [tokens_eval]
    decide
  exact ⟨hmem,
    C2_lexeme_is_source_slice "var x".data _ _ hmem rfl (by decide)⟩

/-- C9: the partial character-to-punctuation conversion succeeds on every
character of the punctuation arm, and consequently no scan step ever
reaches its panic branch. -/
theorem C9_no_panic :
    (∀ c, punctChar c = true → (tokenKindOfChar c).isSome = true) ∧
    (∀ src pos, nextToken src pos ≠ ScanStep.panicked) :=
  ⟨fun _ h => tokenKindOfChar_punct h,
   fun src pos => nextToken_ne_panicked src pos⟩

/-- C9 witness: the conversion is defined at `(` and the scan of `"("` does
not panic. -/
theorem C9_no_panic_witness :
    (tokenKindOfChar '(').isSome = true ∧
      nextToken ['('] 0 ≠ ScanStep.panicked :=
  ⟨C9_no_panic.1 '(' (by decide), C9_no_panic.2 ['('] 0⟩

/-- C10: the terminal `Eof` token is the one output whose lexeme is not a
slice of the source: its lexeme is the fixed text `<eof>` while the source
text at its empty span `(len s, len s)` is empty, unlike every token of the
scan body, whose lexeme is exactly the slice at its span. -/
theorem C10_eof_lexeme_not_slice (src : List Char) :
    Lexer.tokens src = run src 0 ++ [Except.ok (Token.eof (utf8Len src))] ∧
    (Token.eof (utf8Len src)).lexeme = "<eof>".data ∧
    (Token.eof (utf8Len src)).span = ⟨utf8Len src, utf8Len src⟩ ∧
    byteSlice src (utf8Len src) (utf8Len src) = [] ∧
    (Token.eof (utf8Len src)).lexeme ≠
      byteSlice src (Token.eof (utf8Len src)).span.start
        (Token.eof (utf8Len src)).span.stop ∧
    (∀ r ∈ run src 0, ∀ t, r = Except.ok t →
      t.lexeme = byteSlice src t.span.start t.span.stop) := by
  refine ⟨rfl, rfl, rfl, byteSlice_self src (utf8Len src), ?_, ?_⟩
  · intro h
    rw [show (Token.eof (utf8Len src)).span.start = utf8Len src from rfl,
      show (Token.eof (utf8Len src)).span.stop = utf8Len src from rfl,
      byteSlice_self src (utf8Len src)] at h
    exact absurd h (List.cons_ne_nil '<' _)
  · intro r hr t ht
    exact (run_ok_spec src 0 r hr t ht).2

/-- C10 witness: the decomposition applied to the one-character input. -/
theorem C10_eof_lexeme_not_slice_witness :
    (Token.eof (utf8Len ['x'])).lexeme ≠
      byteSlice ['x'] (Token.eof (utf8Len ['x'])).span.start
        (Token.eof (utf8Len ['x'])).span.stop :=
  (C10_eof_lexeme_not_slice ['x']).2.2.2.2.1

/-- The nested block-comment input named by the specification. -/
def c3input : List Char :=
  "/* nested /* block1 */ /* block 2 /* block 2.1*/ */ comment*/".data

/-- The unterminated string input named by the specification. -/
def c8input : List Char := "\"unterminated string".data

/-- The unterminated block-comment input of the specification. -/
def ubcInput : List Char := "/* unterminated block comment".data

/-- C3: a further `/*` inside a block comment increments the depth, a `*/`
decrements it, and reaching depth 0 closes the comment; the nested input
named by the specification scans to the single `Eof` at the input's byte
length (and a comment followed by real code is discarded without a
token). -/
theorem C3_nested_block_comments :
    (∀ (src : List Char) (pos : Nat) (d : Int) (tail : List Char),
      byteDrop src pos = '/' :: tail →
      (byteDrop src (pos + 1)).head? = some '*' →
      blockComment src pos d = blockComment src (pos + 2) (d + 1)) ∧
    (∀ (src : List Char) (pos : Nat) (d : Int) (tail : List Char),
      byteDrop src pos = '*' :: tail →
      (byteDrop src (pos + 1)).head? = some '/' →
      d - 1 ≠ 0 →
      blockComment src pos d = blockComment src (pos + 2) (d - 1)) ∧
    (∀ (src : List Char) (pos : Nat) (d : Int) (tail : List Char),
      byteDrop src pos = '*' :: tail →
      (byteDrop src (pos + 1)).head? = some '/' →
      d - 1 = 0 →
      blockComment src pos d = (pos + 2, 0)) ∧
    Lexer.tokens c3input = [Except.ok (Token.eof (utf8Len c3input))] ∧
    utf8Len c3input = 61 ∧
    Lexer.tokens "/* a /* b */ c */ x".data =
      [Except.ok ⟨.Identifier, "x".data, ⟨18, 19⟩⟩,
       Except.ok (Token.eof 19)] := by
  refine ⟨?_, ?_, ?_, ?_, by decide, ?_⟩
  · intro src pos d tail hdrop hstar
    have hsz : ('/').utf8Size = 1 := by decide
    have hcond : '/' = '/' ∧
        (byteDrop src (pos + ('/').utf8Size)).head? = some '*' :=
      ⟨rfl, by rw [hsz]; exact hstar⟩
    rw [blockComment.eq_def, hdrop]
    simp only [if_pos hcond]
    rw [hsz, show pos + 1 + 1 = pos + 2 by omega]
    simp [hstar]
  · intro src pos d tail hdrop hslash hd
    have hsz : ('*').utf8Size = 1 := by decide
    have hcond : '*' = '*' ∧
        (byteDrop src (pos + ('*').utf8Size)).head? = some '/' :=
      ⟨rfl, by rw [hsz]; exact hslash⟩
    rw [blockComment.eq_def, hdrop]
    simp only [if_neg (show ¬('*' = '/' ∧
        (byteDrop src (pos + ('*').utf8Size)).head? = some '*') by simp),
      if_pos hcond, if_neg hd]
    rw [hsz, show pos + 1 + 1 = pos + 2 by omega]
    simp [hslash]
  · intro src pos d tail hdrop hslash hd
    have hsz : ('*').utf8Size = 1 := by decide
    have hcond : '*' = '*' ∧
        (byteDrop src (pos + ('*').utf8Size)).head? = some '/' :=
      ⟨rfl, by rw [hsz]; exact hslash⟩
    rw [blockComment.eq_def, hdrop]
    simp only [if_neg (show ¬('*' = '/' ∧
        (byteDrop src (pos + ('*').utf8Size)).head? = some '*') by simp),
      if_pos hcond, if_pos hd]
    rw [hsz, show pos + 1 + 1 = pos + 2 by omega, hd]
    simp [hslash]
  · rw [tokens_eval]
    decide
  · rw [tokens_eval]
    decide

/-- C3 witness: opening a nested comment at the start of `"/*"` takes depth
1 to depth 2 two bytes further on. -/
theorem C3_nested_block_comments_witness :
    blockComment "/*".data 0 1 = blockComment "/*".data 2 2 :=
  C3_nested_block_comments.1 "/*".data 0 1 ['*'] (by decide) (by decide)

/-- C4: a terminal error (`UnterminatedString` or `UnterminatedBlockComment`)
is produced only with the cursor at end of input, and in the full output
stream everything after a terminal error is exactly the final `Eof`. -/
theorem C4_terminal_error_ends_scan (src : List Char) :
    (∀ (pos p' : Nat) (e : LexError),
      nextToken src pos = .yield (.error e) p' → e.isTerminal = true →
      byteDrop src p' = []) ∧
    (∀ (pre rest : List (Except LexError Token)) (e : LexError),
      Lexer.tokens src = pre ++ .error e :: rest → e.isTerminal = true →
      rest = [Except.ok (Token.eof (utf8Len src))]) := by
  constructor
  · intro pos p' e h ht
    exact (nextToken_spec src pos _ p' h).2.2.2 e rfl ht
  · intro pre rest e hsplit hterm
    unfold Lexer.tokens at hsplit
    rcases List.eq_nil_or_concat rest with hrest | ⟨rest', last, hrest⟩
    · subst hrest
      obtain ⟨h1, h2⟩ := List.append_inj' hsplit.symm rfl
      simp at h2
    · rw [List.concat_eq_append] at hrest
      subst hrest
      have hsplit2 : (pre ++ .error e :: rest') ++ [last] =
          run src 0 ++ [Except.ok (Token.eof (utf8Len src))] := by
        rw [hsplit]
        simp
      obtain ⟨h1, h2⟩ := List.append_inj' hsplit2 rfl
      have hrest' : rest' = [] :=
        run_terminal_last src 0 pre e rest' h1.symm hterm
      subst hrest'
      simp only [List.cons.injEq, and_true] at h2
      simp [h2]

/-- C4 witness: after the unterminated block comment error on the
specification's input, the remainder of the stream is the single `Eof`. -/
theorem C4_terminal_error_ends_scan_witness :
    ([Except.ok (Token.eof 29)] : List (Except LexError Token)) =
      [Except.ok (Token.eof (utf8Len ubcInput))] :=
  (C4_terminal_error_ends_scan ubcInput).2 []
    [Except.ok (Token.eof 29)]
    (.UnterminatedBlockComment ubcInput ⟨0, 29⟩)
    (by rw [tokens_eval]; decide) (by decide)

/-- C5: a character that starts no lexeme produces `UnexpectedChar` spanning
exactly that character's encoded bytes, with the cursor already advanced
past it, and the scan continues from the following character — several such
errors can be reported in one pass, as on `"@#"`. -/
theorem C5_unexpected_char_recovers :
    (∀ (src : List Char) (pos : Nat) (c : Char) (tail : List Char),
      byteDrop src pos = c :: tail →
      punctChar c = false → c ≠ '!' → c ≠ '=' → c ≠ '>' → c ≠ '<' →
      c ≠ '/' → c ≠ '"' → c.isDigit = false → isAlphanumeric c = false →
      ¬(c = '\n' ∨ c = '\r' ∨ c = ' ' ∨ c = '\t') →
      nextToken src pos =
        .yield (.error (.UnexpectedChar src ⟨pos, c.utf8Size⟩ c))
          (pos + c.utf8Size) ∧
      run src pos =
        .error (.UnexpectedChar src ⟨pos, c.utf8Size⟩ c) ::
          run src (pos + c.utf8Size)) ∧
    Lexer.tokens ['@', '#'] =
      [.error (.UnexpectedChar ['@', '#'] ⟨0, 1⟩ '@'),
       .error (.UnexpectedChar ['@', '#'] ⟨1, 1⟩ '#'),
       Except.ok (Token.eof 2)] := by
  constructor
  · intro src pos c tail hdrop hp h1 h2 h3 h4 h5 h6 h7 h8 h9
    have hx : ¬utf8Len src ≤ pos := by
      have := byteDrop_pos_lt hdrop
      omega
    have hnt : nextToken src pos =
        .yield (.error (.UnexpectedChar src ⟨pos, c.utf8Size⟩ c))
          (pos + c.utf8Size) := by
      rw [nextToken.eq_def, if_neg hx, hdrop]
      simp only [hp, Bool.false_eq_true, if_false, if_neg h1, if_neg h2,
        if_neg h3, if_neg h4, if_neg h5, if_neg h6, h7, h8, if_neg h9]
      rw [show pos + c.utf8Size - c.utf8Size = pos by omega]
    exact ⟨hnt, run_cons hnt⟩
  · rw [tokens_eval]
    decide

/-- C5 witness: the two-byte character `é` produces an error spanning bytes
`[0, 2)` and the cursor resumes at byte 2. -/
theorem C5_unexpected_char_recovers_witness :
    nextToken "é".data 0 =
      .yield (.error (.UnexpectedChar "é".data ⟨0, ('é').utf8Size⟩ 'é'))
        (0 + ('é').utf8Size) :=
  (C5_unexpected_char_recovers.1 "é".data 0 'é' [] (by decide) (by decide)
    (by decide) (by decide) (by decide) (by decide) (by decide) (by decide)
    (by decide) (by decide) (by decide)).1

/-- C6: each of `! = > <` greedily takes a following `=` and emits the
two-character kind, else the one-character kind; the specification's
operator input tokenizes accordingly. -/
theorem C6_greedy_operator_match :
    OpClaim '!' .BangEqual .Bang ∧ OpClaim '=' .EqualEqual .Equal ∧
    OpClaim '>' .GreaterEqual .Greater ∧ OpClaim '<' .LessEqual .Less ∧
    Lexer.tokens "!==<=>=!=<>/.".data =
      [Except.ok ⟨.BangEqual, "!=".data, ⟨0, 2⟩⟩,
       Except.ok ⟨.Equal, "=".data, ⟨2, 3⟩⟩,
       Except.ok ⟨.LessEqual, "<=".data, ⟨3, 5⟩⟩,
       Except.ok ⟨.GreaterEqual, ">=".data, ⟨5, 7⟩⟩,
       Except.ok ⟨.BangEqual, "!=".data, ⟨7, 9⟩⟩,
       Except.ok ⟨.Less, "<".data, ⟨9, 10⟩⟩,
       Except.ok ⟨.Greater, ">".data, ⟨10, 11⟩⟩,
       Except.ok ⟨.Slash, "/".data, ⟨11, 12⟩⟩,
       Except.ok ⟨.Dot, ".".data, ⟨12, 13⟩⟩,
       Except.ok (Token.eof 13)] := by
  refine ⟨opClaim_of _ _ _ (by decide) (fun src pos tail h => nextToken_bang h),
    opClaim_of _ _ _ (by decide) (fun src pos tail h => nextToken_equal h),
    opClaim_of _ _ _ (by decide) (fun src pos tail h => nextToken_greater h),
    opClaim_of _ _ _ (by decide) (fun src pos tail h => nextToken_less h), ?_⟩
  rw [tokens_eval]
  decide

/-- C6 witness: on `"!="` the two-character form wins. -/
theorem C6_greedy_operator_match_witness :
    nextToken "!=".data 0 =
      .yield (wrap "!=".data .BangEqual 0 2) 2 :=
  (C6_greedy_operator_match.1 "!=".data 0 ['='] (by decide)).1 (by decide)

/-- C7: a number literal takes a maximal digit run; a following `.` is
consumed (with a further digit run) only when the character after it is a
digit, otherwise the dot is left for the next token; the three boundary
inputs of the specification scan accordingly. -/
theorem C7_number_dot_boundary :
    (∀ (src : List Char) (pos : Nat),
      (byteDrop src (consumeDigits src pos)).head? = some '.' →
      (((byteDrop src (consumeDigits src pos)).drop 1).head?.getD
        (Char.ofNat 0)).isDigit = false →
      numberLit src pos =
        (wrap src .Number (pos - 1) (consumeDigits src pos),
          consumeDigits src pos)) ∧
    (∀ (src : List Char) (pos : Nat),
      (byteDrop src (consumeDigits src pos)).head? = some '.' →
      (((byteDrop src (consumeDigits src pos)).drop 1).head?.getD
        (Char.ofNat 0)).isDigit = true →
      numberLit src pos =
        (wrap src .Number (pos - 1)
          (consumeDigits src (consumeDigits src pos + 1)),
          consumeDigits src (consumeDigits src pos + 1))) ∧
    Lexer.tokens "123.".data =
      [Except.ok ⟨.Number, "123".data, ⟨0, 3⟩⟩,
       Except.ok ⟨.Dot, ".".data, ⟨3, 4⟩⟩, Except.ok (Token.eof 4)] ∧
    Lexer.tokens ".456".data =
      [Except.ok ⟨.Dot, ".".data, ⟨0, 1⟩⟩,
       Except.ok ⟨.Number, "456".data, ⟨1, 4⟩⟩, Except.ok (Token.eof 4)] ∧
    Lexer.tokens "123.456".data =
      [Except.ok ⟨.Number, "123.456".data, ⟨0, 7⟩⟩,
       Except.ok (Token.eof 7)] := by
  refine ⟨?_, ?_, ?_, ?_, ?_⟩
  · intro src pos hdot hdig
    unfold numberLit
    dsimp only
    rw [if_pos hdot]
    simp only [hdig, Bool.false_eq_true, if_false]
  · intro src pos hdot hdig
    unfold numberLit
    dsimp only
    rw [if_pos hdot, if_pos hdig]
  · rw [tokens_eval]
    decide
  · rw [tokens_eval]
    decide
  · rw [tokens_eval]
    decide

/-- C7 witness: on `"123."` the trailing dot is left unconsumed and the
number token covers bytes `[0, 3)`. -/
theorem C7_number_dot_boundary_witness :
    numberLit "123.".data 1 = (wrap "123.".data .Number 0 3, 3) := by
  have hcd : consumeDigits "123.".data 1 = 3 := by
    rw [← consumeDigitsF_eq "123.".data 10 1 (by decide)]
    decide
  have happ := C7_number_dot_boundary.1 "123.".data 1
    (by rw [hcd]; decide) (by rw [hcd]; decide)
  rw [hcd] at happ
  exact happ

/-- C8 counterexample: on the specification's 20-byte unterminated-string
input the terminal `Eof` is positioned at 20, not 21 as the claim states. -/
theorem C8_counterexample :
    Lexer.tokens c8input =
      [.error (.UnterminatedString c8input ⟨0, 20⟩),
       Except.ok (Token.eof 20)] ∧
    utf8Len c8input = 20 ∧
    Lexer.tokens c8input ≠
      [.error (.UnterminatedString c8input ⟨0, 20⟩),
       Except.ok (Token.eof 21)] := by
  refine ⟨?_, by decide, ?_⟩
  · rw [tokens_eval]
    decide
  · rw [tokens_eval]
    decide

/-- C8 amended: the input `"\"unterminated string"` (20 bytes) yields
exactly `Err(UnterminatedString{span=(0,20)})` — from the opening quote to
end of input — followed by `Ok(Eof)` positioned at 20. -/
theorem C8_unterminated_string :
    Lexer.tokens c8input =
      [.error (.UnterminatedString c8input ⟨0, 20⟩),
       Except.ok (Token.eof 20)] ∧
    utf8Len c8input = 20 := by
  refine ⟨?_, by decide⟩
  rw [tokens_eval]
  decide

end Jlox
